/-
Verification of the skladnik (Sokoban-style) game engine against its
specification.

The file shallowly embeds the move-resolution engine: the level map (grid,
token, objects, counters), elementary step/push legality and mutation, the
reversible Move representation, the undo/redo History, the breadth-first
path search, and the PlayField driver (move commitment protocol, animation
driving, input guards) translated from src/src/PlayField.cpp.

The engine classes LevelMap, Move, MoveSequence, History and PathFinder are
declared and called from PlayField.cpp but their own translation units are
not part of the excerpt; their definitions below are modelled from the
specification (each such definition's doc comment starts with "Modelled
from the spec:").  PlayField itself is translated from the source.

Coordinates and counters are Int (C++ int; no arithmetic here approaches
the 32-bit range, so plain Int is a faithful model).  GUI concerns
(painting, timers' wall-clock pacing, messages) are dropped; the timer tick
itself is kept as the timerEvent transition.
-/
import Mathlib

/-- Replace every occurrence of `a` by `b` in a list (used for moving an
object between cells while keeping the object multiset representation
stable under undo). -/
def replaceAll (a b : Int × Int) (l : List (Int × Int)) : List (Int × Int) :=
  l.map (fun p => if p = a then b else p)

/-- One elementary displacement of a Move: a (dx,dy) token displacement,
flagged when it is a push (the object ahead moves one further cell in the
same direction).  Modelled from the spec: a Move is "an ordered list of
elementary displacements", an "ordered sequence of (dx,dy) unit steps"
optionally ending in push displacements. -/
structure MoveElem where
  dx : Int
  dy : Int
  isPush : Bool
deriving Repr, DecidableEq

/-- Modelled from the spec: the reversible Move representation (Move.cpp is
not part of the excerpt).  Origin coordinates plus the ordered list of
elementary displacements; `finished` is the seal flag set by `finish()`. -/
structure Move where
  startX : Int
  startY : Int
  elems : List MoveElem
  finished : Bool
deriving Repr, DecidableEq

/-- Modelled from the spec: the Level Map - one grid (bounded rectangle,
wall cells, target-floor cells, object cells, token position), the
step/push counters and the structural-validity flag (LevelMap.cpp and
Map.h are not part of the excerpt).  Level/collection metadata that no
claim touches is omitted. -/
structure LevelMap where
  width : Int
  height : Int
  walls : List (Int × Int)
  targets : List (Int × Int)
  objects : List (Int × Int)
  xpos : Int
  ypos : Int
  totalMoves : Int
  totalPushes : Int
  good : Bool
deriving Repr, DecidableEq

/-- Modelled from the spec: bounds check of the grid. -/
def LevelMap.hasCoord (lm : LevelMap) (x y : Int) : Bool :=
  decide (0 ≤ x ∧ x < lm.width ∧ 0 ≤ y ∧ y < lm.height)

/-- Modelled from the spec: wall query. -/
def LevelMap.isWall (lm : LevelMap) (x y : Int) : Bool :=
  decide ((x, y) ∈ lm.walls)

/-- Modelled from the spec: object-occupancy query. -/
def LevelMap.hasObject (lm : LevelMap) (x y : Int) : Bool :=
  decide ((x, y) ∈ lm.objects)

/-- Modelled from the spec: target-floor query. -/
def LevelMap.isTarget (lm : LevelMap) (x y : Int) : Bool :=
  decide ((x, y) ∈ lm.targets)

/-- Modelled from the spec: a cell is occupiable by the token only if it is
in bounds, not a wall and holds no object. -/
def LevelMap.walkableAt (lm : LevelMap) (x y : Int) : Bool :=
  lm.hasCoord x y && !lm.isWall x y && !lm.hasObject x y

/-- Modelled from the spec: level completion - every target-floor cell
currently holds an object. -/
def LevelMap.completed (lm : LevelMap) : Bool :=
  lm.targets.all (fun t => decide (t ∈ lm.objects))

/-- Modelled from the spec: structural-validity query; all mutating
operations are rejected while it is false. -/
def LevelMap.goodLevel (lm : LevelMap) : Bool :=
  lm.good

/-- A unit orthogonal displacement (the only direction in which an object
can be shoved "one cell further in the same direction"). -/
def unitDisp (dx dy : Int) : Bool :=
  decide ((dx = 0 ∧ (dy = 1 ∨ dy = -1)) ∨ (dy = 0 ∧ (dx = 1 ∨ dx = -1)))

/-- Modelled from the spec: LevelMap::step - if the destination is
walkable (in bounds, not a wall, no object) and the level is good, move the
token there and count one step; otherwise report failure and mutate
nothing. -/
def LevelMap.step (lm : LevelMap) (x y : Int) : Bool × LevelMap :=
  if lm.good && lm.walkableAt x y then
    (true, { lm with xpos := x, ypos := y, totalMoves := lm.totalMoves + 1 })
  else (false, lm)

/-- Modelled from the spec: LevelMap::push - the destination (adjacent to
the token, direction d) must hold an object and the cell beyond it (same
direction) must be walkable; then the object moves one further cell, the
token moves onto the object's old cell and one push is counted; otherwise
failure, nothing mutated. -/
def LevelMap.push (lm : LevelMap) (x y : Int) : Bool × LevelMap :=
  let dx := x - lm.xpos
  let dy := y - lm.ypos
  if lm.good && unitDisp dx dy && lm.hasObject x y &&
      lm.walkableAt (x + dx) (y + dy) then
    (true, { lm with xpos := x, ypos := y,
                     objects := replaceAll (x, y) (x + dx, y + dy) lm.objects,
                     totalPushes := lm.totalPushes + 1 })
  else (false, lm)

/-- Apply one elementary displacement of a Move to the Level Map (the
operation the Move Sequence Player performs per tick): a step or a push
relative to the token's current position. -/
def LevelMap.applyElem (lm : LevelMap) (e : MoveElem) : Bool × LevelMap :=
  if e.isPush then lm.push (lm.xpos + e.dx) (lm.ypos + e.dy)
  else lm.step (lm.xpos + e.dx) (lm.ypos + e.dy)

/-- Apply a list of elementary displacements in order; the flag is true iff
every single application succeeded. -/
def LevelMap.applyElems (lm : LevelMap) : List MoveElem → Bool × LevelMap
  | [] => (true, lm)
  | e :: rest =>
    let r := lm.applyElem e
    let r' := r.2.applyElems rest
    (r.1 && r'.1, r'.2)

/-- Modelled from the spec: undoing one elementary displacement - the token
returns to the cell it came from; for a push the shoved object also returns
from the cell beyond back onto the cell the token just vacated; the
corresponding counter is decremented. -/
def LevelMap.undoElem (lm : LevelMap) (e : MoveElem) : LevelMap :=
  if e.isPush then
    { lm with xpos := lm.xpos - e.dx, ypos := lm.ypos - e.dy,
              objects := replaceAll (lm.xpos + e.dx, lm.ypos + e.dy)
                           (lm.xpos, lm.ypos) lm.objects,
              totalPushes := lm.totalPushes - 1 }
  else
    { lm with xpos := lm.xpos - e.dx, ypos := lm.ypos - e.dy,
              totalMoves := lm.totalMoves - 1 }

/-- Undo a displacement list: the later displacements are undone first. -/
def LevelMap.undoElems (lm : LevelMap) : List MoveElem → LevelMap
  | [] => lm
  | e :: rest => (lm.undoElems rest).undoElem e

/-- Modelled from the spec: Move::undo(LevelMap*) replays the Move's
displacements in reverse against the map, restoring prior token/object
positions and decrementing the counters. -/
def Move.undo (m : Move) (lm : LevelMap) : LevelMap :=
  lm.undoElems m.elems

/-- Last recorded x position of a Move under construction. -/
def Move.lastX (m : Move) : Int :=
  m.startX + (m.elems.map (fun e => e.dx)).sum

/-- Last recorded y position of a Move under construction. -/
def Move.lastY (m : Move) : Int :=
  m.startY + (m.elems.map (fun e => e.dy)).sum

/-- Modelled from the spec: Move::step(x,y) appends one elementary token
displacement to reach (x,y) from the last recorded position; (x,y) must be
orthogonally adjacent to that last position and the Move must not be
finished, otherwise the call is rejected. -/
def Move.step (m : Move) (x y : Int) : Option Move :=
  if m.finished then none
  else if unitDisp (x - m.lastX) (y - m.lastY) then
    some { m with elems := m.elems ++ [⟨x - m.lastX, y - m.lastY, false⟩] }
  else none

/-- Modelled from the spec: Move::finish() seals the Move. -/
def Move.finish (m : Move) : Move :=
  { m with finished := true }

/-- Modelled from the spec: the inverse sequence of a Move (reverse order,
negated displacements, flags kept), as handed out by History::deferUndo for
forward playback of an undo. -/
def Move.inverse (m : Move) : Move :=
  { startX := m.lastX, startY := m.lastY,
    elems := (m.elems.map (fun e => ⟨-e.dx, -e.dy, e.isPush⟩)).reverse,
    finished := true }

/-- Modelled from the spec: the Move Sequence Player - a transient cursor
over one (possibly absent) Move's elementary displacement list
(MoveSequence.cpp is not part of the excerpt).  `move` is none when the
player was created from a null Move (e.g. an undo request on an empty
history). -/
structure MoveSequence where
  move : Option Move
  pos : Nat
deriving Repr, DecidableEq

/-- Modelled from the spec: MoveSequence::next() applies exactly one
elementary displacement to the Level Map and advances the cursor, returning
true; once the sequence is exhausted (or bound to no Move) it applies
nothing and returns false. -/
def MoveSequence.next (ms : MoveSequence) (lm : LevelMap) :
    Bool × MoveSequence × LevelMap :=
  match ms.move with
  | none => (false, ms, lm)
  | some m =>
    match m.elems.drop ms.pos with
    | [] => (false, ms, lm)
    | e :: _ => (true, { ms with pos := ms.pos + 1 }, (lm.applyElem e).2)

/-- Number of elementary displacements the player has still to apply. -/
def MoveSequence.remaining (ms : MoveSequence) : Nat :=
  match ms.move with
  | none => 0
  | some m => (m.elems.drop ms.pos).length

/-- Drain the player to exhaustion (fuelled; the spec's "no-animation fast
path ... drain next() in a tight loop", without the completion early
exit). -/
def MoveSequence.run (ms : MoveSequence) (lm : LevelMap) : Nat → LevelMap
  | 0 => lm
  | fuel + 1 =>
    let r := ms.next lm
    if r.1 then r.2.1.run r.2.2 fuel else r.2.2

/-- Full forward replay of a Move by a fresh Move Sequence Player bound to
it, run to exhaustion. -/
def Move.replay (m : Move) (lm : LevelMap) : LevelMap :=
  MoveSequence.run { move := some m, pos := 0 } lm m.elems.length

/-- The drain loop of PlayField::timerEvent's zero-delay branch (translated
from source): `while (moveSequence_->next()) if (levelMap_->completed())
break;` - keeps applying displacements but stops as soon as the map reports
completion. -/
def msDrain (lm : LevelMap) (ms : MoveSequence) : Nat → MoveSequence × LevelMap
  | 0 => (ms, lm)
  | fuel + 1 =>
    let r := ms.next lm
    if r.1 then
      if r.2.2.completed then (r.2.1, r.2.2)
      else msDrain r.2.2 r.2.1 fuel
    else (r.2.1, r.2.2)

/-- Specification-side count of how many displacements the zero-delay drain
applies: it applies displacements one at a time and stops right after the
first one whose application leaves the map completed (or after the last
one). -/
def drainCount (lm : LevelMap) : List MoveElem → Nat
  | [] => 0
  | e :: rest =>
    let lm' := (lm.applyElem e).2
    if lm'.completed then 1 else 1 + drainCount lm' rest

/-- Modelled from the spec: the undo/redo History - the committed Moves
("done" side, most recent first) and the undoable-again tail ("redo" side)
(History.cpp is not part of the excerpt). -/
structure History where
  done : List Move
  redos : List Move
deriving Repr, DecidableEq

/-- Modelled from the spec: History::add appends the committed Move and
discards any redo tail. -/
def History.add (h : History) (m : Move) : History :=
  { done := m :: h.done, redos := [] }

/-- Modelled from the spec: History::clear discards all entries. -/
def History.clear : History :=
  { done := [], redos := [] }

/-- Modelled from the spec: History::deferUndo(LevelMap*) - if the done
list is non-empty, pop the most recent Move to the redo side and return its
inverse sequence for forward playback; return null when there is nothing to
undo.  The Level Map is passed through unmutated. -/
def History.deferUndo (h : History) (lm : LevelMap) :
    Option Move × History × LevelMap :=
  match h.done with
  | [] => (none, h, lm)
  | m :: rest => (some m.inverse, { done := rest, redos := m :: h.redos }, lm)

/-- Modelled from the spec: History::deferRedo(LevelMap*) - inverse of
deferUndo: return the next redo-side Move as a forward-playable sequence
and move it back to the done side; null when there is nothing to redo.  The
Level Map is passed through unmutated. -/
def History.deferRedo (h : History) (lm : LevelMap) :
    Option Move × History × LevelMap :=
  match h.redos with
  | [] => (none, h, lm)
  | m :: rest => (some m, { done := m :: h.done, redos := rest }, lm)

/-- The four orthogonal neighbours of a cell, in the fixed visitation order
(up, down, left, right). -/
def nbrs (p : Int × Int) : List (Int × Int) :=
  [(p.1, p.2 - 1), (p.1, p.2 + 1), (p.1 - 1, p.2), (p.1 + 1, p.2)]

/-- All in-bounds cells of the grid, as a duplicate-free list. -/
def LevelMap.allCells (lm : LevelMap) : List (Int × Int) :=
  ((List.range lm.width.toNat).product (List.range lm.height.toNat)).map
    (fun p => ((p.1 : Int), (p.2 : Int)))

/-- One breadth-first expansion round: keep the already reached cells and
add every walkable in-bounds cell not yet reached that is adjacent to a
reached cell. -/
def bfsNext (lm : LevelMap) (s : List (Int × Int)) : List (Int × Int) :=
  s ++ lm.allCells.filter (fun q =>
    lm.walkableAt q.1 q.2 && !(decide (q ∈ s)) &&
    (nbrs q).any (fun r => decide (r ∈ s)))

/-- Modelled from the spec: the cells reachable from the token's position
in at most n elementary steps over walkable cells (the breadth-first
layers of PathFinder's search; PathFinder.cpp is not part of the
excerpt). -/
def LevelMap.reachN (lm : LevelMap) : Nat → List (Int × Int)
  | 0 => [(lm.xpos, lm.ypos)]
  | n + 1 => bfsNext lm (lm.reachN n)

/-- A fuel bound past which the breadth-first layers are saturated. -/
def LevelMap.bfsBound (lm : LevelMap) : Nat :=
  lm.allCells.length + 1

/-- Least n in [cur, cur+fuel) satisfying p (linear scan). -/
def findLeast (p : Nat → Bool) : Nat → Nat → Option Nat
  | _, 0 => none
  | cur, fuel + 1 => if p cur then some cur else findLeast p (cur + 1) fuel

/-- Backtrack a shortest path: a target-first list of cells from t (in
layer n) down to the token's cell, each cell adjacent to the next and found
one layer earlier. -/
def LevelMap.pathBack (lm : LevelMap) : Nat → Int × Int → List (Int × Int)
  | 0, t => [t]
  | n + 1, t =>
    match (nbrs t).find? (fun q => decide (q ∈ lm.reachN n)) with
    | some q => t :: lm.pathBack n q
    | none => [t]

/-- A valid token walk written target-first: the last cell is the token's
position, consecutive cells are orthogonally adjacent, and every cell
except the token's own is walkable. -/
def LevelMap.backPathOk (lm : LevelMap) : List (Int × Int) → Bool
  | [] => false
  | [p] => decide (p = (lm.xpos, lm.ypos))
  | p :: q :: rest =>
    decide (p ∈ nbrs q) && lm.walkableAt p.1 p.2 &&
    lm.backPathOk (q :: rest)

/-- Turn a target-first cell list into the forward list of elementary step
displacements. -/
def pathElems : List (Int × Int) → List MoveElem
  | [] => []
  | [_] => []
  | p :: q :: rest => pathElems (q :: rest) ++ [⟨p.1 - q.1, p.2 - q.2, false⟩]

/-- Modelled from the spec: PathFinder::search - breadth-first search from
the token's cell over walkable cells to (x,y); returns a sealed Move
holding the minimum-length step list, or null if the target is the origin
or unreachable. -/
def PathFinder.search (lm : LevelMap) (tx ty : Int) : Option Move :=
  if (tx, ty) = (lm.xpos, lm.ypos) then none
  else
    match findLeast (fun n => decide ((tx, ty) ∈ lm.reachN n)) 0
        (lm.bfsBound + 1) with
    | none => none
    | some n =>
      some { startX := lm.xpos, startY := lm.ypos,
             elems := pathElems (lm.pathBack n (tx, ty)), finished := true }

/-- Mouse buttons the PlayField handlers distinguish. -/
inductive MouseButton where
  | left
  | middle
  | right
  | noButton
deriving Repr, DecidableEq

/-- The PlayField engine state (translated from src/src/PlayField.h):
the owned Level Map and History, the active Move Sequence Player (none
when idle), the move-in-progress flag, the animation-delay setting and the
mouse bookkeeping (pressed button, square of the last accepted press;
scene-coordinate-to-square mapping is external geometry, so the handlers
below take the already-mapped square). -/
structure PlayField where
  levelMap : LevelMap
  history : History
  moveSequence : Option MoveSequence
  moveInProgress : Bool
  animDelay : Int
  pressedButton : MouseButton
  lastSquare : Int × Int
deriving Repr, DecidableEq

/-- Translated from source (PlayField::canMoveNow): moves are rejected
while a move sequence is in progress or while the level is broken. -/
def PlayField.canMoveNow (pf : PlayField) : Bool :=
  if pf.moveInProgress then false
  else if !pf.levelMap.goodLevel then false
  else true

/-- Translated from source (PlayField::stopMoving): discard the player and
clear the in-progress flag (timer teardown and repaint are external). -/
def PlayField.stopMoving (pf : PlayField) : PlayField :=
  { pf with moveSequence := none, moveInProgress := false }

/-- Translated from source (PlayField::timerEvent): asserts that a move is
in progress (modelled as returning none when the assertion fails).  With a
nonzero animation delay one displacement is applied per tick; with zero
delay the player is drained in a tight loop that stops as soon as the map
is completed, and then stopped. -/
def PlayField.timerEvent (pf : PlayField) : Option PlayField :=
  if pf.moveInProgress = false then none
  else
    match pf.moveSequence with
    | none => some { pf with moveInProgress := false }
    | some ms =>
      if pf.animDelay = 0 then
        let r := msDrain pf.levelMap ms ms.remaining
        some (PlayField.stopMoving
          { pf with levelMap := r.2, moveSequence := some r.1 })
      else
        let r := ms.next pf.levelMap
        let pf1 := { pf with levelMap := r.2.2, moveSequence := some r.2.1 }
        if r.1 then
          if r.2.2.completed then some (PlayField.stopMoving pf1)
          else some pf1
        else some (PlayField.stopMoving pf1)

/-- Translated from source (PlayField::startMoving): asserts that no
sequence is active (modelled as returning none when the assertion fails),
binds a fresh player to the Move (possibly null, as in the undo/redo call
sites) and immediately fires one timer tick. -/
def PlayField.startMoving (pf : PlayField) (m : Option Move) :
    Option PlayField :=
  if pf.moveSequence = none ∧ pf.moveInProgress = false then
    PlayField.timerEvent
      { pf with moveSequence := some { move := m, pos := 0 },
                moveInProgress := true }
  else none

/-- The direction step PlayField::step/push derive from target vs current
coordinate: 1, -1 or 0. -/
def signDir (target current : Int) : Int :=
  if target > current then 1 else if target < current then -1 else 0

/-- Fuel for the walk loops of PlayField::step/push.  The C++ loops
terminate because each successful LevelMap step/push moves the token one
cell in a fixed nonzero direction inside the bounded grid, so width+height
iterations are never exceeded; the fuel makes that bound explicit. -/
def PlayField.walkFuel (pf : PlayField) : Nat :=
  (pf.levelMap.width + pf.levelMap.height).toNat + 1

/-- The walk loop of PlayField::step (translated from source):
`while (!(x == _x && y == _y) && levelMap_->step(x+dx, y+dy)) ...`;
returns the mutated map and the number of successful iterations. -/
def stepWalk (lm : LevelMap) (x y dx dy tx ty : Int) : Nat → LevelMap × Nat
  | 0 => (lm, 0)
  | fuel + 1 =>
    if x = tx ∧ y = ty then (lm, 0)
    else
      match lm.step (x + dx) (y + dy) with
      | (true, lm1) =>
        let w := stepWalk lm1 (x + dx) (y + dy) dx dy tx ty fuel
        (w.1, w.2 + 1)
      | (false, _) => (lm, 0)

/-- The push loop of PlayField::push (translated from source):
`while (!(x == _x && y == _y) && levelMap_->push(x+dx, y+dy)) ...`. -/
def pushWalk (lm : LevelMap) (x y dx dy tx ty : Int) : Nat → LevelMap × Nat
  | 0 => (lm, 0)
  | fuel + 1 =>
    if x = tx ∧ y = ty then (lm, 0)
    else
      match lm.push (x + dx) (y + dy) with
      | (true, lm1) =>
        let w := pushWalk lm1 (x + dx) (y + dy) dx dy tx ty fuel
        (w.1, w.2 + 1)
      | (false, _) => (lm, 0)

/-- Translated from source (PlayField::step): guard on canMoveNow, walk as
far as possible towards the target, and if the token moved, commit the
recorded Move (add to History, pre-undo the map, replay via
startMoving).  Move.cpp is absent from the excerpt, so the committed
Move's content is its spec-level representation: the ordered list of the
walk's elementary displacements. -/
def PlayField.step (pf : PlayField) (tx ty : Int) : Option PlayField :=
  if pf.canMoveNow = false then some pf
  else
    let oldX := pf.levelMap.xpos
    let oldY := pf.levelMap.ypos
    let dx := signDir tx oldX
    let dy := signDir ty oldY
    let w := stepWalk pf.levelMap oldX oldY dx dy tx ty pf.walkFuel
    if w.2 ≠ 0 then
      let m : Move := { startX := oldX, startY := oldY,
                        elems := List.replicate w.2 ⟨dx, dy, false⟩,
                        finished := true }
      PlayField.startMoving
        { pf with levelMap := m.undo w.1, history := pf.history.add m }
        (some m)
    else some { pf with levelMap := w.1 }

/-- Translated from source (PlayField::push): guard on canMoveNow, walk
steps as far as possible, then pushes as far as possible, and if the token
moved, commit the recorded Move exactly as PlayField::step does. -/
def PlayField.push (pf : PlayField) (tx ty : Int) : Option PlayField :=
  if pf.canMoveNow = false then some pf
  else
    let oldX := pf.levelMap.xpos
    let oldY := pf.levelMap.ypos
    let dx := signDir tx oldX
    let dy := signDir ty oldY
    let w1 := stepWalk pf.levelMap oldX oldY dx dy tx ty pf.walkFuel
    let objX := oldX + w1.2 * dx
    let objY := oldY + w1.2 * dy
    let w2 := pushWalk w1.1 objX objY dx dy tx ty pf.walkFuel
    if w1.2 + w2.2 ≠ 0 then
      let m : Move := { startX := oldX, startY := oldY,
                        elems := List.replicate w1.2 ⟨dx, dy, false⟩ ++
                                 List.replicate w2.2 ⟨dx, dy, true⟩,
                        finished := true }
      PlayField.startMoving
        { pf with levelMap := m.undo w2.1, history := pf.history.add m }
        (some m)
    else some { pf with levelMap := w2.1 }

/-- Translated from source (PlayField::undo): guard on canMoveNow, then
play whatever History::deferUndo hands back. -/
def PlayField.undo (pf : PlayField) : Option PlayField :=
  if pf.canMoveNow = false then some pf
  else
    let r := pf.history.deferUndo pf.levelMap
    PlayField.startMoving
      { pf with history := r.2.1, levelMap := r.2.2 } r.1

/-- Translated from source (PlayField::redo): guard on canMoveNow, then
play whatever History::deferRedo hands back. -/
def PlayField.redo (pf : PlayField) : Option PlayField :=
  if pf.canMoveNow = false then some pf
  else
    let r := pf.history.deferRedo pf.levelMap
    PlayField.startMoving
      { pf with history := r.2.1, levelMap := r.2.2 } r.1

/-- Translated from source (PlayField::mousePressEvent): ignored unless
moves are allowed; otherwise records the pressed button and the square
under the cursor. -/
def PlayField.mousePressEvent (pf : PlayField) (square : Int × Int)
    (b : MouseButton) : PlayField :=
  if pf.canMoveNow = false then pf
  else { pf with pressedButton := b, lastSquare := square }

/-- Translated from source (PlayField::mouseReleaseEvent): clears the
pressed button; if the release square matches the last press square and is
on the board, a left release commits the path-search Move, a middle release
undoes, a right release pushes.  Note there is no canMoveNow guard on this
handler. -/
def PlayField.mouseReleaseEvent (pf : PlayField) (square : Int × Int)
    (b : MouseButton) : Option PlayField :=
  let pf0 := { pf with pressedButton := MouseButton.noButton }
  if square ≠ pf.lastSquare then some pf0
  else if !pf.levelMap.hasCoord square.1 square.2 then some pf0
  else
    match b with
    | MouseButton.left =>
      match PathFinder.search pf0.levelMap square.1 square.2 with
      | some m =>
        PlayField.startMoving
          { pf0 with history := pf0.history.add m } (some m)
      | none => some pf0
    | MouseButton.middle => pf0.undo
    | MouseButton.right => pf0.push square.1 square.2
    | MouseButton.noButton => some pf0

/-- Translated from source (PlayField constructor): the persisted
animation-delay setting is clamped to 2 when outside 0..3. -/
def initAnimDelay (persisted : Int) : Int :=
  if persisted < 0 ∨ persisted > 3 then 2 else persisted

/-- Translated from source (PlayField::changeAnim): asserts 0 <= num <= 3
(modelled as returning none when the assertion fails) and stores the new
delay setting. -/
def PlayField.changeAnim (pf : PlayField) (num : Int) : Option PlayField :=
  if 0 ≤ num ∧ num ≤ 3 then some { pf with animDelay := num } else none

/-- The four-element tick-delay array of PlayField::startMoving. -/
def animDelays : List Int :=
  [0, 15, 35, 60]

/-- Concrete 4x1 corridor level: token at (0,0), an unsatisfied target at
(0,0)'s column end; used by concrete witnesses. -/
def lmCorridor : LevelMap :=
  { width := 4, height := 1, walls := [], targets := [(0, 0)], objects := [],
    xpos := 0, ypos := 0, totalMoves := 0, totalPushes := 0, good := true }

/-- Concrete 1x4 column level with one pushable object: token (0,0),
object (0,1), target (0,3). -/
def lmColumn : LevelMap :=
  { width := 1, height := 4, walls := [], targets := [(0, 3)],
    objects := [(0, 1)], xpos := 0, ypos := 0, totalMoves := 0,
    totalPushes := 0, good := true }

/-- Concrete 3x3 level whose object at (1,2) is backed by the boundary:
pushing it is illegal. -/
def lmBlocked : LevelMap :=
  { width := 3, height := 3, walls := [], targets := [(2, 2)],
    objects := [(1, 2)], xpos := 1, ypos := 1, totalMoves := 0,
    totalPushes := 0, good := true }

/-- lmColumn marked structurally broken. -/
def lmBroken : LevelMap :=
  { lmColumn with good := false }

/-- An idle PlayField over the corridor level. -/
def pfCorridor : PlayField :=
  { levelMap := lmCorridor, history := History.clear, moveSequence := none,
    moveInProgress := false, animDelay := 1,
    pressedButton := MouseButton.noButton, lastSquare := (0, 0) }

/-- A sealed one-step Move along the corridor. -/
def mOneStep : Move :=
  { startX := 0, startY := 0, elems := [⟨1, 0, false⟩], finished := true }

/-- A PlayField captured mid-animation (a one-step sequence is active). -/
def pfBusy : PlayField :=
  { levelMap := lmCorridor, history := History.clear,
    moveSequence := some { move := some mOneStep, pos := 0 },
    moveInProgress := true, animDelay := 2,
    pressedButton := MouseButton.noButton, lastSquare := (0, 0) }

/-- An idle PlayField over the broken level. -/
def pfBroken : PlayField :=
  { pfCorridor with levelMap := lmBroken }

/-- An idle PlayField over the column level with zero animation delay. -/
def pfColumnFast : PlayField :=
  { pfCorridor with levelMap := lmColumn, animDelay := 0 }

/-- The two-displacement Move along the corridor used by concrete
witnesses. -/
def mCorridor : Move :=
  { startX := 0, startY := 0,
    elems := [⟨1, 0, false⟩, ⟨1, 0, false⟩], finished := true }

/-- A PlayField about to drain mCorridor with zero animation delay. -/
def pfDrain : PlayField :=
  { pfCorridor with
      animDelay := 0,
      moveSequence := some { move := some mCorridor, pos := 0 },
      moveInProgress := true }

theorem replaceAll_replaceAll (a b : Int × Int) (l : List (Int × Int))
    (h : b ∉ l) : replaceAll b a (replaceAll a b l) = l := by
  induction l with
  | nil => rfl
  | cons p rest ih =>
    have hp : p ≠ b := by
      rintro rfl
      exact h (List.mem_cons_self p rest)
    have hr := ih (fun hb => h (List.mem_cons_of_mem _ hb))
    simp only [replaceAll, List.map_cons] at hr ⊢
    by_cases hpa : p = a
    · subst hpa
      simp [hr]
    · simp [hpa, hp, hr]

theorem step_characterize (lm lm' : LevelMap) (x y : Int)
    (h : lm.step x y = (true, lm')) :
    (lm.good && lm.walkableAt x y) = true ∧
    lm' = { lm with xpos := x, ypos := y,
                    totalMoves := lm.totalMoves + 1 } := by
  rw [LevelMap.step] at h
  split at h
  · rename_i hg
    simp only [Prod.mk.injEq, true_and] at h
    exact ⟨hg, h.symm⟩
  · simp at h

theorem push_characterize (lm lm' : LevelMap) (x y : Int)
    (h : lm.push x y = (true, lm')) :
    (lm.good && unitDisp (x - lm.xpos) (y - lm.ypos) && lm.hasObject x y &&
      lm.walkableAt (x + (x - lm.xpos)) (y + (y - lm.ypos))) = true ∧
    lm' = { lm with xpos := x, ypos := y,
                    objects := replaceAll (x, y)
                      (x + (x - lm.xpos), y + (y - lm.ypos)) lm.objects,
                    totalPushes := lm.totalPushes + 1 } := by
  rw [LevelMap.push] at h
  split at h
  · rename_i hg
    simp only [Prod.mk.injEq, true_and] at h
    exact ⟨hg, h.symm⟩
  · simp at h

theorem applyElem_undoElem (lm lm' : LevelMap) (e : MoveElem)
    (h : lm.applyElem e = (true, lm')) : lm'.undoElem e = lm := by
  obtain ⟨dx, dy, isPush⟩ := e
  cases isPush with
  | false =>
    rw [LevelMap.applyElem] at h
    simp only [Bool.false_eq_true, if_false] at h
    obtain ⟨-, rfl⟩ := step_characterize _ _ _ _ h
    rw [LevelMap.undoElem]
    simp
  | true =>
    rw [LevelMap.applyElem] at h
    simp only [if_true] at h
    obtain ⟨hg, rfl⟩ := push_characterize _ _ _ _ h
    simp only [add_sub_cancel_left] at hg
    have hno : (lm.xpos + dx + dx, lm.ypos + dy + dy) ∉ lm.objects := by
      simp only [Bool.and_eq_true, LevelMap.walkableAt, Bool.not_eq_true',
        LevelMap.hasObject] at hg
      exact of_decide_eq_false hg.2.2
    rw [LevelMap.undoElem]
    simp only [if_true, add_sub_cancel_left, add_sub_cancel_right]
    rw [replaceAll_replaceAll _ _ _ hno]

theorem applyElems_cons (lm : LevelMap) (e : MoveElem) (l : List MoveElem) :
    lm.applyElems (e :: l) =
      ((lm.applyElem e).1 && ((lm.applyElem e).2.applyElems l).1,
       ((lm.applyElem e).2.applyElems l).2) := rfl

theorem applyElems_true_cons (lm : LevelMap) (e : MoveElem)
    (l : List MoveElem) (h : (lm.applyElems (e :: l)).1 = true) :
    (lm.applyElem e).1 = true ∧ ((lm.applyElem e).2.applyElems l).1 = true := by
  rw [applyElems_cons] at h
  exact Bool.and_eq_true_iff.mp h

theorem applyElem_eta (lm : LevelMap) (e : MoveElem)
    (h : (lm.applyElem e).1 = true) :
    lm.applyElem e = (true, (lm.applyElem e).2) := by
  rw [← h]

theorem applyElems_undoElems (l : List MoveElem) : ∀ (lm : LevelMap),
    (lm.applyElems l).1 = true → (lm.applyElems l).2.undoElems l = lm := by
  induction l with
  | nil => intro lm _; rfl
  | cons e rest ih =>
    intro lm h
    obtain ⟨h1, h2⟩ := applyElems_true_cons _ _ _ h
    rw [applyElems_cons]
    show (((lm.applyElem e).2.applyElems rest).2.undoElems rest).undoElem e = lm
    rw [ih _ h2]
    exact applyElem_undoElem _ _ _ (applyElem_eta _ _ h1)

theorem applyElems_append (l1 l2 : List MoveElem) : ∀ (lm : LevelMap),
    lm.applyElems (l1 ++ l2) =
      ((lm.applyElems l1).1 && ((lm.applyElems l1).2.applyElems l2).1,
       ((lm.applyElems l1).2.applyElems l2).2) := by
  induction l1 with
  | nil => intro lm; simp [LevelMap.applyElems]
  | cons e rest ih =>
    intro lm
    rw [List.cons_append, applyElems_cons, applyElems_cons, ih]
    simp [Bool.and_assoc]

theorem run_drop (m : Move) (l : List MoveElem) : ∀ (pos : Nat)
    (lm : LevelMap), m.elems.drop pos = l →
    MoveSequence.run { move := some m, pos := pos } lm l.length =
      (lm.applyElems l).2 := by
  induction l with
  | nil => intro pos lm _; rfl
  | cons e rest ih =>
    intro pos lm h
    have hdrop : m.elems.drop (pos + 1) = rest := by
      rw [← List.drop_drop, h, List.drop_one, List.tail_cons]
    show MoveSequence.run _ lm (rest.length + 1) = _
    rw [MoveSequence.run]
    have hnext : MoveSequence.next { move := some m, pos := pos } lm =
        (true, { move := some m, pos := pos + 1 }, (lm.applyElem e).2) := by
      rw [MoveSequence.next]
      simp [h]
    rw [hnext]
    simp only [if_true]
    rw [ih _ _ hdrop, applyElems_cons]

theorem replay_eq_applyElems (m : Move) (lm : LevelMap) :
    m.replay lm = (lm.applyElems m.elems).2 := by
  have h := run_drop m m.elems 0 lm (List.drop_zero m.elems)
  rw [Move.replay, h]

theorem msDrain_drop (m : Move) (l : List MoveElem) : ∀ (pos : Nat)
    (lm : LevelMap), m.elems.drop pos = l →
    (msDrain lm { move := some m, pos := pos } l.length).2 =
      (lm.applyElems (l.take (drainCount lm l))).2 := by
  induction l with
  | nil => intro pos lm _; rfl
  | cons e rest ih =>
    intro pos lm h
    have hdrop : m.elems.drop (pos + 1) = rest := by
      rw [← List.drop_drop, h, List.drop_one, List.tail_cons]
    show (msDrain lm _ (rest.length + 1)).2 = _
    rw [msDrain]
    have hnext : MoveSequence.next { move := some m, pos := pos } lm =
        (true, { move := some m, pos := pos + 1 }, (lm.applyElem e).2) := by
      rw [MoveSequence.next]
      simp [h]
    rw [hnext]
    simp only [if_true]
    rw [drainCount]
    by_cases hc : ((lm.applyElem e).2).completed = true
    · simp only [hc, if_true, List.take_succ_cons, List.take_zero]
      rw [applyElems_cons]
      rfl
    · rw [Bool.not_eq_true] at hc
      simp only [hc, Bool.false_eq_true, if_false]
      rw [ih _ _ hdrop]
      rw [Nat.add_comm 1 (drainCount ((lm.applyElem e).2) rest),
        List.take_succ_cons, applyElems_cons]

theorem drainCount_le (l : List MoveElem) : ∀ (lm : LevelMap),
    drainCount lm l ≤ l.length := by
  induction l with
  | nil => intro lm; exact Nat.le_refl 0
  | cons e rest ih =>
    intro lm
    rw [drainCount]
    by_cases hc : ((lm.applyElem e).2).completed = true
    · simp only [hc, if_true, List.length_cons]
      exact Nat.succ_le_succ (Nat.zero_le _)
    · rw [Bool.not_eq_true] at hc
      simp only [hc, Bool.false_eq_true, if_false, List.length_cons,
        Nat.add_comm 1]
      exact Nat.succ_le_succ (ih _)

theorem drainCount_stops_completed (l : List MoveElem) : ∀ (lm : LevelMap),
    drainCount lm l < l.length →
    ((lm.applyElems (l.take (drainCount lm l))).2).completed = true := by
  induction l with
  | nil => intro lm h; exact absurd h (Nat.lt_irrefl 0)
  | cons e rest ih =>
    intro lm h
    rw [drainCount] at h ⊢
    by_cases hc : ((lm.applyElem e).2).completed = true
    · simp only [hc, if_true, List.take_succ_cons, List.take_zero,
        applyElems_cons]
      exact hc
    · rw [Bool.not_eq_true] at hc
      simp only [hc, Bool.false_eq_true, if_false] at h ⊢
      rw [Nat.add_comm 1, List.take_succ_cons, applyElems_cons]
      refine ih _ ?_
      rw [List.length_cons, Nat.add_comm 1] at h
      exact Nat.lt_of_succ_lt_succ h

theorem drainCount_not_completed_before (l : List MoveElem) :
    ∀ (lm : LevelMap) (j : Nat), 1 ≤ j → j < drainCount lm l →
    ((lm.applyElems (l.take j)).2).completed = false := by
  induction l with
  | nil =>
    intro lm j h1 h2
    exact absurd (Nat.lt_of_lt_of_le h2 (Nat.zero_le 1)) (Nat.not_lt.mpr h1)
  | cons e rest ih =>
    intro lm j h1 h2
    rw [drainCount] at h2
    by_cases hc : ((lm.applyElem e).2).completed = true
    · simp only [hc, if_true] at h2
      exact absurd h2 (Nat.not_lt.mpr h1)
    · rw [Bool.not_eq_true] at hc
      simp only [hc, Bool.false_eq_true, if_false] at h2
      obtain ⟨j', rfl⟩ : ∃ j', j = j' + 1 :=
        ⟨j - 1, (Nat.succ_pred_eq_of_pos h1).symm⟩
      rw [List.take_succ_cons, applyElems_cons]
      show ((((lm.applyElem e).2).applyElems (rest.take j')).2).completed = false
      by_cases hz : j' = 0
      · subst hz
        simpa [LevelMap.applyElems] using hc
      · refine ih _ j' (Nat.one_le_iff_ne_zero.mpr hz) ?_
        rw [Nat.add_comm 1] at h2
        exact Nat.lt_of_succ_lt_succ h2

theorem stepWalk_spec (dx dy tx ty : Int) : ∀ (fuel : Nat) (lm lm' : LevelMap)
    (n : Nat), stepWalk lm lm.xpos lm.ypos dx dy tx ty fuel = (lm', n) →
    lm.applyElems (List.replicate n ⟨dx, dy, false⟩) = (true, lm') ∧
    lm'.xpos = lm.xpos + n * dx ∧ lm'.ypos = lm.ypos + n * dy := by
  intro fuel
  induction fuel with
  | zero =>
    intro lm lm' n h
    rw [stepWalk] at h
    injection h with h1 h2
    subst h1
    subst h2
    simp [LevelMap.applyElems]
  | succ fuel ih =>
    intro lm lm' n h
    rw [stepWalk] at h
    split at h
    · injection h with h1 h2
      subst h1
      subst h2
      simp [LevelMap.applyElems]
    · split at h
      · rename_i lm1 hstep
        obtain ⟨-, hlm1⟩ := step_characterize _ _ _ _ hstep
        have hx1 : lm1.xpos = lm.xpos + dx := by rw [hlm1]
        have hy1 : lm1.ypos = lm.ypos + dy := by rw [hlm1]
        have hcall : stepWalk lm1 lm1.xpos lm1.ypos dx dy tx ty fuel =
            ((stepWalk lm1 (lm.xpos + dx) (lm.ypos + dy) dx dy tx ty fuel).1,
             (stepWalk lm1 (lm.xpos + dx) (lm.ypos + dy) dx dy tx ty fuel).2) := by
          rw [hx1, hy1]
        obtain ⟨ha, hpx, hpy⟩ := ih lm1 _ _ hcall
        injection h with h1 h2
        subst h1
        subst h2
        refine ⟨?_, ?_, ?_⟩
        · rw [List.replicate_succ, applyElems_cons]
          have he : lm.applyElem ⟨dx, dy, false⟩ = (true, lm1) := by
            rw [LevelMap.applyElem]
            simpa using hstep
          rw [he]
          simpa using ha
        · rw [hpx, hx1]
          push_cast
          ring
        · rw [hpy, hy1]
          push_cast
          ring
      · injection h with h1 h2
        subst h1
        subst h2
        simp [LevelMap.applyElems]

theorem pushWalk_spec (dx dy tx ty : Int) : ∀ (fuel : Nat) (lm lm' : LevelMap)
    (n : Nat), pushWalk lm lm.xpos lm.ypos dx dy tx ty fuel = (lm', n) →
    lm.applyElems (List.replicate n ⟨dx, dy, true⟩) = (true, lm') ∧
    lm'.xpos = lm.xpos + n * dx ∧ lm'.ypos = lm.ypos + n * dy := by
  intro fuel
  induction fuel with
  | zero =>
    intro lm lm' n h
    rw [pushWalk] at h
    injection h with h1 h2
    subst h1
    subst h2
    simp [LevelMap.applyElems]
  | succ fuel ih =>
    intro lm lm' n h
    rw [pushWalk] at h
    split at h
    · injection h with h1 h2
      subst h1
      subst h2
      simp [LevelMap.applyElems]
    · split at h
      · rename_i lm1 hpush
        obtain ⟨-, hlm1⟩ := push_characterize _ _ _ _ hpush
        have hx1 : lm1.xpos = lm.xpos + dx := by rw [hlm1]
        have hy1 : lm1.ypos = lm.ypos + dy := by rw [hlm1]
        have hcall : pushWalk lm1 lm1.xpos lm1.ypos dx dy tx ty fuel =
            ((pushWalk lm1 (lm.xpos + dx) (lm.ypos + dy) dx dy tx ty fuel).1,
             (pushWalk lm1 (lm.xpos + dx) (lm.ypos + dy) dx dy tx ty fuel).2) := by
          rw [hx1, hy1]
        obtain ⟨ha, hpx, hpy⟩ := ih lm1 _ _ hcall
        injection h with h1 h2
        subst h1
        subst h2
        refine ⟨?_, ?_, ?_⟩
        · rw [List.replicate_succ, applyElems_cons]
          have he : lm.applyElem ⟨dx, dy, true⟩ = (true, lm1) := by
            rw [LevelMap.applyElem]
            simpa using hpush
          rw [he]
          simpa using ha
        · rw [hpx, hx1]
          push_cast
          ring
        · rw [hpy, hy1]
          push_cast
          ring
      · injection h with h1 h2
        subst h1
        subst h2
        simp [LevelMap.applyElems]

theorem canMoveNow_of_busy (pf : PlayField) (h : pf.moveInProgress = true) :
    pf.canMoveNow = false := by
  rw [PlayField.canMoveNow, h]
  rfl

theorem canMoveNow_of_broken (pf : PlayField)
    (h : pf.levelMap.good = false) : pf.canMoveNow = false := by
  rw [PlayField.canMoveNow]
  split
  · rfl
  · rw [LevelMap.goodLevel, h]
    rfl

/-- C1: while a move sequence is in progress (moveInProgress is true),
every step, push, undo and redo request is ignored: each handler returns
with the whole PlayField state - level map, history and active sequence -
unchanged, so in particular no new Move is committed to History. -/
theorem busy_requests_ignored (pf : PlayField) (tx ty : Int)
    (h : pf.moveInProgress = true) :
    pf.step tx ty = some pf ∧ pf.push tx ty = some pf ∧
    pf.undo = some pf ∧ pf.redo = some pf := by
  have hc := canMoveNow_of_busy pf h
  refine ⟨?_, ?_, ?_, ?_⟩
  · rw [PlayField.step, hc]
    rfl
  · rw [PlayField.push, hc]
    rfl
  · rw [PlayField.undo, hc]
    rfl
  · rw [PlayField.redo, hc]
    rfl

/-- Witness for C1 at the concrete mid-animation PlayField pfBusy. -/
theorem busy_requests_ignored_witness :
    pfBusy.step 1 0 = some pfBusy ∧ pfBusy.push 1 0 = some pfBusy ∧
    pfBusy.undo = some pfBusy ∧ pfBusy.redo = some pfBusy :=
  busy_requests_ignored pfBusy 1 0 rfl

/-- C5: when goodLevel() is false, every mutating engine operation is a
no-op reporting failure: the PlayField handlers return the state unchanged
(so no Move is committed) and the Level Map primitives return false
without mutating the map. -/
theorem broken_level_noop (pf : PlayField) (lm : LevelMap) (tx ty x y : Int)
    (hpf : pf.levelMap.good = false) (hlm : lm.good = false) :
    pf.step tx ty = some pf ∧ pf.push tx ty = some pf ∧
    pf.undo = some pf ∧ pf.redo = some pf ∧
    lm.step x y = (false, lm) ∧ lm.push x y = (false, lm) := by
  have hc := canMoveNow_of_broken pf hpf
  refine ⟨?_, ?_, ?_, ?_, ?_, ?_⟩
  · rw [PlayField.step, hc]
    rfl
  · rw [PlayField.push, hc]
    rfl
  · rw [PlayField.undo, hc]
    rfl
  · rw [PlayField.redo, hc]
    rfl
  · rw [LevelMap.step, hlm]
    rfl
  · rw [LevelMap.push, hlm]
    rfl

/-- Witness for C5 at the concrete broken level lmBroken / pfBroken. -/
theorem broken_level_noop_witness :
    pfBroken.step 0 1 = some pfBroken ∧ pfBroken.push 0 1 = some pfBroken ∧
    pfBroken.undo = some pfBroken ∧ pfBroken.redo = some pfBroken ∧
    lmBroken.step 0 1 = (false, lmBroken) ∧
    lmBroken.push 0 1 = (false, lmBroken) :=
  broken_level_noop pfBroken lmBroken 0 1 0 1 rfl rfl

/-- C6: an illegal elementary move is rejected without mutating any state:
a step whose destination is out of bounds, a wall or an object returns
failure with the map unchanged, and so does a push whose destination
beyond the object is out of bounds, a wall or occupied. -/
theorem illegal_elementary_rejected (lm : LevelMap) (x y : Int) :
    (lm.walkableAt x y = false → lm.step x y = (false, lm)) ∧
    (lm.walkableAt (x + (x - lm.xpos)) (y + (y - lm.ypos)) = false →
      lm.push x y = (false, lm)) := by
  constructor
  · intro hw
    rw [LevelMap.step, hw]
    simp
  · intro hw
    rw [LevelMap.push]
    simp only [hw]
    simp

/-- Witness for C6: in lmBlocked, stepping into the object cell (1,2)
fails, and pushing the object at (1,2) fails because the cell beyond it,
(1,3), is out of bounds; the map is unchanged both times. -/
theorem illegal_elementary_rejected_witness :
    lmBlocked.step 1 2 = (false, lmBlocked) ∧
    lmBlocked.push 1 2 = (false, lmBlocked) :=
  ⟨(illegal_elementary_rejected lmBlocked 1 2).1 (by decide),
   (illegal_elementary_rejected lmBlocked 1 2).2 (by decide)⟩

/-- An unfinished empty Move at the origin, used by concrete witnesses. -/
def mEmpty : Move :=
  { startX := 0, startY := 0, elems := [], finished := false }

/-- C7: Move::step(x,y) requires (x,y) to be orthogonally adjacent to the
last recorded position: a non-adjacent call is rejected, and an adjacent
call on an unfinished Move appends exactly one elementary non-push
displacement whose endpoint is (x,y). -/
theorem move_step_adjacency (m : Move) (x y : Int) :
    (unitDisp (x - m.lastX) (y - m.lastY) = false → m.step x y = none) ∧
    (m.finished = false → unitDisp (x - m.lastX) (y - m.lastY) = true →
      m.step x y =
        some { m with elems := m.elems ++ [⟨x - m.lastX, y - m.lastY, false⟩] } ∧
      (Move.mk m.startX m.startY
        (m.elems ++ [⟨x - m.lastX, y - m.lastY, false⟩]) m.finished).lastX = x ∧
      (Move.mk m.startX m.startY
        (m.elems ++ [⟨x - m.lastX, y - m.lastY, false⟩]) m.finished).lastY = y) := by
  constructor
  · intro hu
    rw [Move.step]
    split
    · rfl
    · rw [hu]
      rfl
  · intro hf hu
    refine ⟨?_, ?_, ?_⟩
    · rw [Move.step, hf, hu]
      rfl
    · rw [Move.lastX]
      simp only [List.map_append, List.sum_append]
      rw [Move.lastX]
      simp only [List.map_cons, List.map_nil, List.sum_cons, List.sum_nil]
      ring
    · rw [Move.lastY]
      simp only [List.map_append, List.sum_append]
      rw [Move.lastY]
      simp only [List.map_cons, List.map_nil, List.sum_cons, List.sum_nil]
      ring

/-- Witness for C7 at the concrete unfinished Move mEmpty: the
non-adjacent request (3,0) is rejected, the adjacent request (1,0) appends
the single displacement. -/
theorem move_step_adjacency_witness :
    mEmpty.step 3 0 = none ∧
    mEmpty.step 1 0 =
      some { startX := 0, startY := 0, elems := [⟨1, 0, false⟩],
             finished := false } :=
  ⟨(move_step_adjacency mEmpty 3 0).1 (by decide),
   ((move_step_adjacency mEmpty 1 0).2 rfl (by decide)).1⟩

/-- C2: round-trip law of the commit protocol.  For a Move m whose
elementary displacements all apply legally to a map: undoing after
applying restores the original map exactly (token, objects, counters);
replaying m to exhaustion via a Move Sequence Player from the undone state
reproduces the applied state, and undoing after a replay restores the
original; and the Moves committed by PlayField::step / PlayField::push
(the walk loops' displacement lists) applied once are exactly the walks'
net map effect, so the protocol "apply during construction, add to
History, undo, then replay via startMoving" nets to applying the Move
once. -/
theorem move_commit_roundtrip (lm : LevelMap) (m : Move)
    (h : (lm.applyElems m.elems).1 = true) :
    m.undo (lm.applyElems m.elems).2 = lm ∧
    m.replay (m.undo (lm.applyElems m.elems).2) = (lm.applyElems m.elems).2 ∧
    m.undo (m.replay lm) = lm ∧
    (∀ (lm0 lm1 : LevelMap) (fuel n : Nat) (dx dy tx ty : Int),
      stepWalk lm0 lm0.xpos lm0.ypos dx dy tx ty fuel = (lm1, n) →
      lm0.applyElems (List.replicate n ⟨dx, dy, false⟩) = (true, lm1)) ∧
    (∀ (lm0 lm1 lm2 : LevelMap) (fuel n1 n2 : Nat) (dx dy tx ty : Int),
      stepWalk lm0 lm0.xpos lm0.ypos dx dy tx ty fuel = (lm1, n1) →
      pushWalk lm1 (lm0.xpos + n1 * dx) (lm0.ypos + n1 * dy) dx dy tx ty
        fuel = (lm2, n2) →
      lm0.applyElems (List.replicate n1 ⟨dx, dy, false⟩ ++
        List.replicate n2 ⟨dx, dy, true⟩) = (true, lm2)) := by
  have hundo : m.undo (lm.applyElems m.elems).2 = lm :=
    applyElems_undoElems m.elems lm h
  refine ⟨hundo, ?_, ?_, ?_, ?_⟩
  · rw [hundo, replay_eq_applyElems]
  · rw [replay_eq_applyElems]
    exact hundo
  · intro lm0 lm1 fuel n dx dy tx ty hw
    exact (stepWalk_spec dx dy tx ty fuel lm0 lm1 n hw).1
  · intro lm0 lm1 lm2 fuel n1 n2 dx dy tx ty hw1 hw2
    obtain ⟨ha1, hx1, hy1⟩ := stepWalk_spec dx dy tx ty fuel lm0 lm1 n1 hw1
    have hw2' : pushWalk lm1 lm1.xpos lm1.ypos dx dy tx ty fuel =
        (lm2, n2) := by
      rw [hx1, hy1]
      exact hw2
    obtain ⟨ha2, -, -⟩ := pushWalk_spec dx dy tx ty fuel lm1 lm2 n2 hw2'
    rw [applyElems_append, ha1]
    simp only
    rw [ha2]
    simp

/-- Witness for C2: the one-cell push Move on lmColumn (token steps are
empty, one push displacement) applies successfully, and the theorem's
round-trip conclusions hold there. -/
theorem move_commit_roundtrip_witness :
    (Move.mk 0 0 [⟨0, 1, true⟩] true).undo
        (lmColumn.applyElems [⟨0, 1, true⟩]).2 = lmColumn ∧
    (Move.mk 0 0 [⟨0, 1, true⟩] true).replay
        ((Move.mk 0 0 [⟨0, 1, true⟩] true).undo
          (lmColumn.applyElems [⟨0, 1, true⟩]).2) =
      (lmColumn.applyElems [⟨0, 1, true⟩]).2 := by
  have h := move_commit_roundtrip lmColumn (Move.mk 0 0 [⟨0, 1, true⟩] true)
    (by decide)
  exact ⟨h.1, h.2.1⟩

/-- C4: behaviour of the animation driver (PlayField::timerEvent).  With
zero animation delay the whole remaining displacement list is drained
synchronously but the drain stops right after the first displacement whose
application completes the level, leaving any later displacements
unapplied; with nonzero delay exactly one elementary displacement is
applied per tick. -/
theorem timerEvent_drain_behavior (pf : PlayField) (ms : MoveSequence)
    (m : Move) (h1 : pf.moveInProgress = true)
    (h2 : pf.moveSequence = some ms) (h3 : ms.move = some m) :
    (pf.animDelay = 0 →
      ∃ pf', pf.timerEvent = some pf' ∧
        pf'.levelMap = (pf.levelMap.applyElems ((m.elems.drop ms.pos).take
          (drainCount pf.levelMap (m.elems.drop ms.pos)))).2 ∧
        pf'.moveInProgress = false ∧ pf'.moveSequence = none ∧
        drainCount pf.levelMap (m.elems.drop ms.pos) ≤
          (m.elems.drop ms.pos).length ∧
        (drainCount pf.levelMap (m.elems.drop ms.pos) <
            (m.elems.drop ms.pos).length →
          ((pf.levelMap.applyElems ((m.elems.drop ms.pos).take
            (drainCount pf.levelMap (m.elems.drop ms.pos)))).2).completed =
              true) ∧
        (∀ j, 1 ≤ j → j < drainCount pf.levelMap (m.elems.drop ms.pos) →
          ((pf.levelMap.applyElems
            ((m.elems.drop ms.pos).take j)).2).completed = false)) ∧
    (pf.animDelay ≠ 0 → ∀ e rest, m.elems.drop ms.pos = e :: rest →
      ∃ pf', pf.timerEvent = some pf' ∧
        pf'.levelMap = (pf.levelMap.applyElem e).2) := by
  constructor
  · intro hz
    rw [PlayField.timerEvent, h1]
    simp only [Bool.true_eq_false, if_false, h2, hz, if_pos rfl]
    refine ⟨_, rfl, ?_, rfl, rfl, drainCount_le _ _,
      drainCount_stops_completed _ _, fun j hj1 hj2 =>
        drainCount_not_completed_before _ _ j hj1 hj2⟩
    show (msDrain pf.levelMap ms ms.remaining).2 = _
    have hrem : ms.remaining = (m.elems.drop ms.pos).length := by
      rw [MoveSequence.remaining, h3]
    rw [hrem]
    have hms : ms = { move := some m, pos := ms.pos } := by
      cases ms
      cases h3
      rfl
    rw [hms]
    exact msDrain_drop m (m.elems.drop ms.pos) ms.pos pf.levelMap rfl
  · intro hnz e rest hdrop
    rw [PlayField.timerEvent, h1]
    simp only [Bool.true_eq_false, if_false, h2]
    rw [if_neg hnz]
    have hnext : ms.next pf.levelMap =
        (true, { ms with pos := ms.pos + 1 }, (pf.levelMap.applyElem e).2) := by
      simp only [MoveSequence.next, h3, hdrop]
    rw [hnext]
    simp only [if_true]
    split
    · exact ⟨_, rfl, rfl⟩
    · exact ⟨_, rfl, rfl⟩

/-- Witness for C4 at pfDrain (zero delay, the two-step corridor Move
active) and pfBusy (nonzero delay): the drain resolves the whole Move
synchronously, the tick applies exactly the first displacement. -/
theorem timerEvent_drain_behavior_witness :
    (∃ pf', pfDrain.timerEvent = some pf' ∧
      pf'.levelMap = (pfDrain.levelMap.applyElems
        ((mCorridor.elems.drop 0).take
          (drainCount pfDrain.levelMap (mCorridor.elems.drop 0)))).2 ∧
      pf'.moveInProgress = false ∧ pf'.moveSequence = none ∧
      drainCount pfDrain.levelMap (mCorridor.elems.drop 0) ≤
        (mCorridor.elems.drop 0).length ∧
      (drainCount pfDrain.levelMap (mCorridor.elems.drop 0) <
          (mCorridor.elems.drop 0).length →
        ((pfDrain.levelMap.applyElems ((mCorridor.elems.drop 0).take
          (drainCount pfDrain.levelMap (mCorridor.elems.drop 0)))).2).completed =
            true) ∧
      (∀ j, 1 ≤ j → j < drainCount pfDrain.levelMap (mCorridor.elems.drop 0) →
        ((pfDrain.levelMap.applyElems
          ((mCorridor.elems.drop 0).take j)).2).completed = false)) ∧
    (∃ pf', pfBusy.timerEvent = some pf' ∧
      pf'.levelMap = (pfBusy.levelMap.applyElem ⟨1, 0, false⟩).2) := by
  constructor
  · exact (timerEvent_drain_behavior pfDrain
      { move := some mCorridor, pos := 0 } mCorridor rfl rfl rfl).1 rfl
  · exact (timerEvent_drain_behavior pfBusy
      { move := some mOneStep, pos := 0 } mOneStep rfl rfl rfl).2
      (by decide) ⟨1, 0, false⟩ [] rfl

theorem startMoving_none (pf : PlayField) (hms : pf.moveSequence = none)
    (hmip : pf.moveInProgress = false) :
    pf.startMoving none = some pf := by
  obtain ⟨lm, h, ms0, mip, ad, pb, ls⟩ := pf
  simp only at hms hmip
  subst hms
  subst hmip
  by_cases hz : ad = 0
  · subst hz
    rfl
  · simp [PlayField.startMoving, PlayField.timerEvent, MoveSequence.next,
      PlayField.stopMoving, hz, msDrain, MoveSequence.remaining]

theorem canMoveNow_mip (pf : PlayField) (hc : ¬pf.canMoveNow = false) :
    pf.moveInProgress = false := by
  cases hm : pf.moveInProgress
  · rfl
  · exact absurd (canMoveNow_of_busy pf hm) hc

/-- C8: requesting an undo (redo) with the corresponding side of the
History empty returns null and mutates nothing: History::deferUndo and
History::deferRedo hand back the history and the Level Map unchanged, and
the PlayField undo/redo handlers leave the whole engine state as it was. -/
theorem defer_on_empty_noop (h : History) (lm : LevelMap) (pf : PlayField) :
    (h.done = [] → h.deferUndo lm = (none, h, lm)) ∧
    (h.redos = [] → h.deferRedo lm = (none, h, lm)) ∧
    ((pf.moveInProgress = false → pf.moveSequence = none) →
      pf.history.done = [] → pf.undo = some pf) ∧
    ((pf.moveInProgress = false → pf.moveSequence = none) →
      pf.history.redos = [] → pf.redo = some pf) := by
  refine ⟨?_, ?_, ?_, ?_⟩
  · intro hd
    rw [History.deferUndo, hd]
  · intro hr
    rw [History.deferRedo, hr]
  · intro hinv hd
    rw [PlayField.undo]
    by_cases hc : pf.canMoveNow = false
    · rw [if_pos hc]
    · rw [if_neg hc]
      have hmip := canMoveNow_mip pf hc
      have hms := hinv hmip
      rw [History.deferUndo, hd]
      exact startMoving_none pf hms hmip
  · intro hinv hr
    rw [PlayField.redo]
    by_cases hc : pf.canMoveNow = false
    · rw [if_pos hc]
    · rw [if_neg hc]
      have hmip := canMoveNow_mip pf hc
      have hms := hinv hmip
      rw [History.deferRedo, hr]
      exact startMoving_none pf hms hmip

/-- Witness for C8 at the concrete idle PlayField pfCorridor whose history
is empty on both sides. -/
theorem defer_on_empty_noop_witness :
    History.clear.deferUndo lmCorridor = (none, History.clear, lmCorridor) ∧
    History.clear.deferRedo lmCorridor = (none, History.clear, lmCorridor) ∧
    pfCorridor.undo = some pfCorridor ∧
    pfCorridor.redo = some pfCorridor := by
  have t := defer_on_empty_noop History.clear lmCorridor pfCorridor
  exact ⟨t.1 rfl, t.2.1 rfl, t.2.2.1 (fun _ => rfl) rfl,
    t.2.2.2 (fun _ => rfl) rfl⟩

theorem timerEvent_animDelay (pf pf' : PlayField)
    (h : pf.timerEvent = some pf') : pf'.animDelay = pf.animDelay := by
  simp only [PlayField.timerEvent] at h
  split at h
  · exact absurd h (by simp)
  · split at h
    · simp only [Option.some.injEq] at h
      subst h
      rfl
    · split at h
      · simp only [Option.some.injEq] at h
        subst h
        rfl
      · split at h
        · split at h
          · simp only [Option.some.injEq] at h
            subst h
            rfl
          · simp only [Option.some.injEq] at h
            subst h
            rfl
        · simp only [Option.some.injEq] at h
          subst h
          rfl

theorem startMoving_animDelay (pf pf' : PlayField) (m : Option Move)
    (h : pf.startMoving m = some pf') : pf'.animDelay = pf.animDelay := by
  simp only [PlayField.startMoving] at h
  split at h
  · have hte := timerEvent_animDelay _ _ h
    exact hte
  · exact absurd h (by simp)

/-- C10: the animation-delay setting is always in range 0..3: the
constructor clamps any out-of-range persisted value to 2, changeAnim only
accepts values 0..3, every engine transition preserves the setting, and an
in-range setting indexes the four-element delay array in bounds. -/
theorem anim_delay_invariant (v : Int) (pf pf1 pf2 pf3 pf4 pf5 : PlayField)
    (n tx ty : Int) :
    (0 ≤ initAnimDelay v ∧ initAnimDelay v ≤ 3) ∧
    (pf.changeAnim n = some pf1 →
      (0 ≤ pf1.animDelay ∧ pf1.animDelay ≤ 3) ∧ 0 ≤ n ∧ n ≤ 3) ∧
    (pf.step tx ty = some pf2 → pf2.animDelay = pf.animDelay) ∧
    (pf.push tx ty = some pf3 → pf3.animDelay = pf.animDelay) ∧
    (pf.undo = some pf4 → pf4.animDelay = pf.animDelay) ∧
    (pf.redo = some pf5 → pf5.animDelay = pf.animDelay) ∧
    (0 ≤ pf.animDelay → pf.animDelay ≤ 3 →
      pf.animDelay.toNat < animDelays.length) := by
  refine ⟨?_, ?_, ?_, ?_, ?_, ?_, ?_⟩
  · rw [initAnimDelay]
    split
    · exact ⟨by norm_num, by norm_num⟩
    · rename_i hv
      push_neg at hv
      exact ⟨hv.1, hv.2⟩
  · intro h
    rw [PlayField.changeAnim] at h
    split at h
    · rename_i hn
      simp only [Option.some.injEq] at h
      subst h
      exact ⟨⟨hn.1, hn.2⟩, hn.1, hn.2⟩
    · exact absurd h (by simp)
  · intro h
    simp only [PlayField.step] at h
    split at h
    · simp only [Option.some.injEq] at h
      subst h
      rfl
    · split at h
      · have hsm := startMoving_animDelay _ _ _ h
        exact hsm
      · simp only [Option.some.injEq] at h
        subst h
        rfl
  · intro h
    simp only [PlayField.push] at h
    split at h
    · simp only [Option.some.injEq] at h
      subst h
      rfl
    · split at h
      · have hsm := startMoving_animDelay _ _ _ h
        exact hsm
      · simp only [Option.some.injEq] at h
        subst h
        rfl
  · intro h
    simp only [PlayField.undo] at h
    split at h
    · simp only [Option.some.injEq] at h
      subst h
      rfl
    · have hsm := startMoving_animDelay _ _ _ h
      exact hsm
  · intro h
    simp only [PlayField.redo] at h
    split at h
    · simp only [Option.some.injEq] at h
      subst h
      rfl
    · have hsm := startMoving_animDelay _ _ _ h
      exact hsm
  · intro h0 h3
    rw [animDelays]
    simp only [List.length_cons, List.length_nil]
    omega

/-- Witness for C10: the out-of-range persisted value 7 is clamped into
range, changeAnim accepts 3, and pfCorridor's in-range setting indexes the
delay array in bounds. -/
theorem anim_delay_invariant_witness :
    (0 ≤ initAnimDelay 7 ∧ initAnimDelay 7 ≤ 3) ∧
    ((0 ≤ ((pfCorridor.changeAnim 3).getD pfCorridor).animDelay ∧
      ((pfCorridor.changeAnim 3).getD pfCorridor).animDelay ≤ 3) ∧
      (0 : Int) ≤ 3 ∧ (3 : Int) ≤ 3) ∧
    pfCorridor.animDelay.toNat < animDelays.length := by
  have t := anim_delay_invariant 7 pfCorridor
    ((pfCorridor.changeAnim 3).getD pfCorridor)
    pfCorridor pfCorridor pfCorridor pfCorridor 3 0 0
  exact ⟨t.1, t.2.1 rfl, t.2.2.2.2.2.2 (by decide) (by decide)⟩

theorem nbrs_symm (p q : Int × Int) (h : p ∈ nbrs q) : q ∈ nbrs p := by
  obtain ⟨px, py⟩ := p
  obtain ⟨qx, qy⟩ := q
  simp only [nbrs, List.mem_cons, List.mem_singleton, Prod.mk.injEq,
    List.not_mem_nil, or_false] at h ⊢
  omega

theorem mem_allCells (lm : LevelMap) (x y : Int)
    (h : lm.hasCoord x y = true) : (x, y) ∈ lm.allCells := by
  rw [LevelMap.hasCoord] at h
  have hh := of_decide_eq_true h
  rw [LevelMap.allCells]
  rw [List.mem_map]
  refine ⟨(x.toNat, y.toNat), ?_, ?_⟩
  · rw [List.pair_mem_product]
    constructor
    · rw [List.mem_range]
      omega
    · rw [List.mem_range]
      omega
  · simp only [Prod.mk.injEq]
    constructor
    · omega
    · omega

theorem allCells_nodup (lm : LevelMap) : lm.allCells.Nodup := by
  rw [LevelMap.allCells]
  refine List.Nodup.map ?_ (List.Nodup.product (List.nodup_range _)
    (List.nodup_range _))
  intro a b hab
  obtain ⟨a1, a2⟩ := a
  obtain ⟨b1, b2⟩ := b
  simp only [Prod.mk.injEq, Int.natCast_inj] at hab
  simp [hab.1, hab.2]

theorem reach_nodup (lm : LevelMap) : ∀ n, (lm.reachN n).Nodup := by
  intro n
  induction n with
  | zero => exact List.nodup_singleton _
  | succ n ih =>
    rw [LevelMap.reachN, bfsNext]
    refine List.Nodup.append ih (List.Nodup.filter _ (allCells_nodup lm)) ?_
    intro q hq hq'
    rw [List.mem_filter] at hq'
    have := hq'.2
    simp only [Bool.and_eq_true, Bool.not_eq_true'] at this
    exact absurd hq (of_decide_eq_false this.1.2)

theorem reach_subset_univ (lm : LevelMap) : ∀ n,
    lm.reachN n ⊆ (lm.xpos, lm.ypos) :: lm.allCells := by
  intro n
  induction n with
  | zero =>
    intro q hq
    rw [LevelMap.reachN, List.mem_singleton] at hq
    subst hq
    exact List.mem_cons_self _ _
  | succ n ih =>
    intro q hq
    rw [LevelMap.reachN, bfsNext, List.mem_append] at hq
    rcases hq with hq | hq
    · exact ih hq
    · rw [List.mem_filter] at hq
      exact List.mem_cons_of_mem _ hq.1

theorem reach_mono_succ (lm : LevelMap) (n : Nat) :
    lm.reachN n ⊆ lm.reachN (n + 1) := by
  rw [LevelMap.reachN, bfsNext]
  exact List.subset_append_left _ _

theorem reach_mono (lm : LevelMap) (m : Nat) : ∀ n, m ≤ n →
    lm.reachN m ⊆ lm.reachN n := by
  intro n
  induction n with
  | zero =>
    intro h
    rw [Nat.le_zero.mp h]
    exact fun q hq => hq
  | succ n ih =>
    intro h
    rcases Nat.lt_or_ge m (n + 1) with hlt | hge
    · exact fun q hq => reach_mono_succ lm n (ih (Nat.lt_succ_iff.mp hlt) hq)
    · rw [Nat.le_antisymm h hge]
      exact fun q hq => hq

theorem reach_succ_cases (lm : LevelMap) (n : Nat) (q : Int × Int)
    (h : q ∈ lm.reachN (n + 1)) :
    q ∈ lm.reachN n ∨ (q ∈ lm.allCells ∧ lm.walkableAt q.1 q.2 = true ∧
      ∃ r ∈ nbrs q, r ∈ lm.reachN n) := by
  rw [LevelMap.reachN, bfsNext, List.mem_append] at h
  rcases h with h | h
  · exact Or.inl h
  · rw [List.mem_filter] at h
    right
    refine ⟨h.1, ?_, ?_⟩
    · have := h.2
      simp only [Bool.and_eq_true] at this
      exact this.1.1
    · have := h.2
      simp only [Bool.and_eq_true, List.any_eq_true] at this
      obtain ⟨r, hr, hr'⟩ := this.2
      exact ⟨r, hr, of_decide_eq_true hr'⟩

theorem reach_expand (lm : LevelMap) (n : Nat) (q r : Int × Int)
    (hq : q ∈ lm.allCells) (hw : lm.walkableAt q.1 q.2 = true)
    (hr : r ∈ nbrs q) (hrn : r ∈ lm.reachN n) : q ∈ lm.reachN (n + 1) := by
  by_cases hmem : q ∈ lm.reachN n
  · exact reach_mono_succ lm n hmem
  · rw [LevelMap.reachN, bfsNext, List.mem_append]
    right
    rw [List.mem_filter]
    refine ⟨hq, ?_⟩
    simp only [Bool.and_eq_true, Bool.not_eq_true', List.any_eq_true]
    exact ⟨⟨hw, decide_eq_false hmem⟩, r, hr, decide_eq_true hrn⟩

theorem reach_start (lm : LevelMap) (n : Nat) :
    (lm.xpos, lm.ypos) ∈ lm.reachN n :=
  reach_mono lm 0 n (Nat.zero_le n) (List.mem_singleton.mpr rfl)

theorem walkable_mem_allCells (lm : LevelMap) (q : Int × Int)
    (hw : lm.walkableAt q.1 q.2 = true) : q ∈ lm.allCells := by
  rw [LevelMap.walkableAt] at hw
  simp only [Bool.and_eq_true] at hw
  obtain ⟨x, y⟩ := q
  exact mem_allCells lm x y hw.1.1

theorem backPath_mem_reach (lm : LevelMap) : ∀ (rest : List (Int × Int))
    (p : Int × Int), lm.backPathOk (p :: rest) = true →
    p ∈ lm.reachN rest.length := by
  intro rest
  induction rest with
  | nil =>
    intro p h
    rw [LevelMap.backPathOk] at h
    rw [List.length_nil, LevelMap.reachN, List.mem_singleton]
    exact of_decide_eq_true h
  | cons q rest ih =>
    intro p h
    rw [LevelMap.backPathOk] at h
    simp only [Bool.and_eq_true] at h
    obtain ⟨⟨hadj, hw⟩, hrest⟩ := h
    have hq := ih q hrest
    rw [List.length_cons]
    exact reach_expand lm rest.length p q (walkable_mem_allCells lm p hw) hw
      (nbrs_symm p q (of_decide_eq_true hadj)) hq

theorem pathBack_spec (lm : LevelMap) : ∀ (n : Nat) (t : Int × Int),
    t ∈ lm.reachN n → (∀ m, m < n → t ∉ lm.reachN m) →
    lm.backPathOk (lm.pathBack n t) = true ∧
    (lm.pathBack n t).length = n + 1 ∧
    (lm.pathBack n t).head? = some t := by
  intro n
  induction n with
  | zero =>
    intro t ht _
    rw [LevelMap.reachN, List.mem_singleton] at ht
    subst ht
    refine ⟨?_, rfl, rfl⟩
    rw [LevelMap.pathBack, LevelMap.backPathOk]
    exact decide_eq_true rfl
  | succ n ih =>
    intro t ht hmin
    have hnot : t ∉ lm.reachN n := hmin n (Nat.lt_succ_self n)
    rcases reach_succ_cases lm n t ht with hc | hc
    · exact absurd hc hnot
    · obtain ⟨hcell, hw, r, hr, hrn⟩ := hc
      have hfind : ((nbrs t).find?
          (fun q => decide (q ∈ lm.reachN n))).isSome := by
        rw [List.find?_isSome]
        exact ⟨r, hr, decide_eq_true hrn⟩
      obtain ⟨q, hq⟩ := Option.isSome_iff_exists.mp hfind
      have hqreach : q ∈ lm.reachN n := by
        have h2 := List.find?_some hq
        simpa using h2
      have hqnbr : q ∈ nbrs t := List.mem_of_find?_eq_some hq
      have hqmin : ∀ m, m < n → q ∉ lm.reachN m := by
        intro m hm hqm
        have : t ∈ lm.reachN (m + 1) :=
          reach_expand lm m t q hcell hw hqnbr hqm
        exact hmin (m + 1) (Nat.succ_lt_succ hm) this
      obtain ⟨hok, hlen, hhead⟩ := ih q hqreach hqmin
      have hpb : lm.pathBack (n + 1) t = t :: lm.pathBack n q := by
        rw [LevelMap.pathBack, hq]
      obtain ⟨q', tail, htail⟩ : ∃ q' tail, lm.pathBack n q = q' :: tail := by
        cases hp : lm.pathBack n q with
        | nil =>
          rw [hp] at hhead
          exact absurd hhead (by simp)
        | cons a b => exact ⟨a, b, rfl⟩
      have hq2 : q' = q := by
        rw [htail] at hhead
        simpa using hhead
      rw [hq2] at htail
      refine ⟨?_, ?_, ?_⟩
      · rw [hpb, htail, LevelMap.backPathOk]
        rw [htail] at hok
        simp only [Bool.and_eq_true]
        exact ⟨⟨decide_eq_true (nbrs_symm q t hqnbr), hw⟩, hok⟩
      · rw [hpb, List.length_cons, hlen]
      · rw [hpb]
        rfl

theorem findLeast_some (p : Nat → Bool) : ∀ (fuel cur n : Nat),
    findLeast p cur fuel = some n →
    p n = true ∧ cur ≤ n ∧ ∀ m, cur ≤ m → m < n → p m = false := by
  intro fuel
  induction fuel with
  | zero => intro cur n h; exact absurd h (by rw [findLeast]; simp)
  | succ fuel ih =>
    intro cur n h
    rw [findLeast] at h
    split at h
    · rename_i hp
      injection h with h
      subst h
      exact ⟨hp, Nat.le_refl _, fun m hm1 hm2 =>
        absurd (Nat.lt_of_lt_of_le hm2 hm1) (Nat.lt_irrefl m)⟩
    · rename_i hp
      obtain ⟨h1, h2, h3⟩ := ih (cur + 1) n h
      refine ⟨h1, Nat.le_of_succ_le h2, ?_⟩
      intro m hm1 hm2
      rcases Nat.eq_or_lt_of_le hm1 with hm | hm
      · rw [← hm]
        exact Bool.of_not_eq_true hp
      · exact h3 m hm hm2

theorem findLeast_none (p : Nat → Bool) : ∀ (fuel cur : Nat),
    findLeast p cur fuel = none →
    ∀ m, cur ≤ m → m < cur + fuel → p m = false := by
  intro fuel
  induction fuel with
  | zero =>
    intro cur _ m hm1 hm2
    exact absurd hm2 (by omega)
  | succ fuel ih =>
    intro cur h m hm1 hm2
    rw [findLeast] at h
    split at h
    · exact absurd h (by simp)
    · rename_i hp
      rcases Nat.eq_or_lt_of_le hm1 with hm | hm
      · rw [← hm]
        exact Bool.of_not_eq_true hp
      · refine ih (cur + 1) h m hm ?_
        omega

theorem reach_stab (lm : LevelMap) (n : Nat)
    (h : lm.reachN (n + 1) = lm.reachN n) :
    ∀ k, n ≤ k → lm.reachN k = lm.reachN n := by
  intro k
  induction k with
  | zero =>
    intro hk
    rw [Nat.le_zero.mp hk]
  | succ k ih =>
    intro hk
    rcases Nat.lt_or_ge n (k + 1) with hlt | hge
    · have hnk := Nat.lt_succ_iff.mp hlt
      have hrk := ih hnk
      show bfsNext lm (lm.reachN k) = lm.reachN n
      rw [hrk]
      exact h
    · rw [Nat.le_antisymm hk hge]

theorem reach_growth (lm : LevelMap) : ∀ (n : Nat),
    (∀ m, m < n → lm.reachN (m + 1) ≠ lm.reachN m) →
    n < (lm.reachN n).length := by
  intro n
  induction n with
  | zero => intro _; rw [LevelMap.reachN]; exact Nat.zero_lt_one
  | succ n ih =>
    intro h
    have hn := ih (fun m hm => h m (Nat.lt_succ_of_lt hm))
    have hne := h n (Nat.lt_succ_self n)
    show n + 1 < (bfsNext lm (lm.reachN n)).length
    rw [bfsNext, List.length_append]
    have hfne : (lm.allCells.filter (fun q =>
        lm.walkableAt q.1 q.2 && !(decide (q ∈ lm.reachN n)) &&
        (nbrs q).any (fun r => decide (r ∈ lm.reachN n)))).length ≠ 0 := by
      intro hzero
      apply hne
      show bfsNext lm (lm.reachN n) = lm.reachN n
      rw [bfsNext, List.length_eq_zero.mp hzero]
      exact List.append_nil _
    omega

theorem reach_length_le (lm : LevelMap) (n : Nat) :
    (lm.reachN n).length ≤ lm.bfsBound := by
  have h := List.Subperm.length_le
    (List.Nodup.subperm (reach_nodup lm n) (reach_subset_univ lm n))
  rw [List.length_cons] at h
  rw [LevelMap.bfsBound]
  exact h

theorem exists_reach_stab (lm : LevelMap) :
    ∃ m, m < lm.bfsBound ∧ lm.reachN (m + 1) = lm.reachN m := by
  by_contra hcon
  push_neg at hcon
  have hg := reach_growth lm lm.bfsBound (fun m hm => hcon m hm)
  exact absurd (Nat.lt_of_lt_of_le hg (reach_length_le lm _))
    (Nat.lt_irrefl _)

theorem reach_subset_bound (lm : LevelMap) (k : Nat) :
    lm.reachN k ⊆ lm.reachN lm.bfsBound := by
  obtain ⟨m, hm, hstab⟩ := exists_reach_stab lm
  rcases Nat.le_total k lm.bfsBound with hk | hk
  · exact reach_mono lm k lm.bfsBound hk
  · have h1 := reach_stab lm m hstab k (Nat.le_trans (Nat.le_of_lt hm) hk)
    have h2 := reach_stab lm m hstab lm.bfsBound (Nat.le_of_lt hm)
    rw [h1, ← h2]
    exact fun q hq => hq

theorem pathElems_length : ∀ (l : List (Int × Int)) (p : Int × Int),
    (pathElems (p :: l)).length = l.length := by
  intro l
  induction l with
  | nil => intro p; rfl
  | cons q rest ih =>
    intro p
    rw [pathElems, List.length_append, ih q]
    rfl

theorem pathElems_no_push : ∀ (l : List (Int × Int)) (e : MoveElem),
    e ∈ pathElems l → e.isPush = false := by
  intro l
  induction l with
  | nil => intro e he; exact absurd he (List.not_mem_nil e)
  | cons p rest ih =>
    intro e he
    cases rest with
    | nil => exact absurd he (List.not_mem_nil e)
    | cons q rest' =>
      rw [pathElems, List.mem_append] at he
      rcases he with he | he
      · exact ih e he
      · rw [List.mem_singleton] at he
        subst he
        rfl

/-- C3: PathFinder::search correctness.  The search returns null when the
target is the token's own cell; whenever some walkable walk (a backPathOk
list, written target-first) reaches the target, the search returns a
sealed Move of token steps only whose elementary step count is the
breadth-first distance: some walk attains exactly that count and no walk
is shorter; and when no walkable walk reaches the target the search
returns null. -/
theorem pathfinder_search_correct (lm : LevelMap) (tx ty : Int) :
    ((tx, ty) = (lm.xpos, lm.ypos) → PathFinder.search lm tx ty = none) ∧
    (∀ l, lm.backPathOk l = true → l.head? = some (tx, ty) →
      (tx, ty) ≠ (lm.xpos, lm.ypos) →
      ∃ m, PathFinder.search lm tx ty = some m ∧ m.finished = true ∧
        (∀ e ∈ m.elems, e.isPush = false) ∧
        (∃ l', lm.backPathOk l' = true ∧ l'.head? = some (tx, ty) ∧
          l'.length = m.elems.length + 1) ∧
        (∀ l2, lm.backPathOk l2 = true → l2.head? = some (tx, ty) →
          m.elems.length + 1 ≤ l2.length)) ∧
    ((∀ l, lm.backPathOk l = true → l.head? ≠ some (tx, ty)) →
      PathFinder.search lm tx ty = none) := by
  refine ⟨?_, ?_, ?_⟩
  · intro h
    rw [PathFinder.search, if_pos h]
  · intro l hok hhead hne
    obtain ⟨rest, hl⟩ : ∃ rest, l = (tx, ty) :: rest := by
      cases l with
      | nil => exact absurd hhead (by simp)
      | cons a r =>
        have ha : a = (tx, ty) := by simpa using hhead
        exact ⟨r, by rw [ha]⟩
    subst hl
    have hmem : (tx, ty) ∈ lm.reachN rest.length :=
      backPath_mem_reach lm rest _ hok
    have hmemB : (tx, ty) ∈ lm.reachN lm.bfsBound :=
      reach_subset_bound lm _ hmem
    have hsome : (findLeast (fun n => decide ((tx, ty) ∈ lm.reachN n)) 0
        (lm.bfsBound + 1)).isSome = true := by
      cases hf : findLeast (fun n => decide ((tx, ty) ∈ lm.reachN n)) 0
          (lm.bfsBound + 1) with
      | none =>
        have hfalse := findLeast_none _ _ _ hf lm.bfsBound (Nat.zero_le _)
          (by omega)
        rw [decide_eq_true hmemB] at hfalse
        exact absurd hfalse (by simp)
      | some n => rfl
    obtain ⟨n, hn⟩ := Option.isSome_iff_exists.mp hsome
    obtain ⟨hpn, -, hmin'⟩ := findLeast_some _ _ _ _ hn
    have hreachn : (tx, ty) ∈ lm.reachN n := by simpa using hpn
    have hminm : ∀ m, m < n → (tx, ty) ∉ lm.reachN m := by
      intro m hm hmm
      have hx := hmin' m (Nat.zero_le m) hm
      rw [decide_eq_true hmm] at hx
      exact absurd hx (by simp)
    obtain ⟨hokP, hlenP, hheadP⟩ := pathBack_spec lm n (tx, ty) hreachn hminm
    obtain ⟨tail, htail⟩ : ∃ tail, lm.pathBack n (tx, ty) =
        (tx, ty) :: tail := by
      cases hp : lm.pathBack n (tx, ty) with
      | nil =>
        rw [hp] at hheadP
        exact absurd hheadP (by simp)
      | cons a b =>
        rw [hp] at hheadP
        simp only [List.head?_cons, Option.some.injEq] at hheadP
        exact ⟨b, by rw [hheadP]⟩
    have helems : (pathElems (lm.pathBack n (tx, ty))).length = n := by
      rw [htail, pathElems_length]
      rw [htail, List.length_cons] at hlenP
      omega
    have hsearch : PathFinder.search lm tx ty =
        some { startX := lm.xpos, startY := lm.ypos,
               elems := pathElems (lm.pathBack n (tx, ty)),
               finished := true } := by
      rw [PathFinder.search, if_neg hne, hn]
    refine ⟨_, hsearch, rfl, ?_, ?_, ?_⟩
    · intro e he
      exact pathElems_no_push _ e he
    · refine ⟨lm.pathBack n (tx, ty), hokP, hheadP, ?_⟩
      show (lm.pathBack n (tx, ty)).length =
        (pathElems (lm.pathBack n (tx, ty))).length + 1
      rw [helems, hlenP]
    · intro l2 hok2 hhead2
      obtain ⟨r2, hl2⟩ : ∃ r2, l2 = (tx, ty) :: r2 := by
        cases l2 with
        | nil => exact absurd hhead2 (by simp)
        | cons a r =>
          have ha : a = (tx, ty) := by simpa using hhead2
          exact ⟨r, by rw [ha]⟩
      subst hl2
      have hm2 : (tx, ty) ∈ lm.reachN r2.length :=
        backPath_mem_reach lm r2 _ hok2
      have hnle : n ≤ r2.length := by
        by_contra hlt
        push_neg at hlt
        have hx := hmin' r2.length (Nat.zero_le _) hlt
        rw [decide_eq_true hm2] at hx
        exact absurd hx (by simp)
      show (pathElems (lm.pathBack n (tx, ty))).length + 1 ≤
        ((tx, ty) :: r2).length
      rw [helems, List.length_cons]
      omega
  · intro hno
    rw [PathFinder.search]
    split
    · rfl
    · cases hf : findLeast (fun n => decide ((tx, ty) ∈ lm.reachN n)) 0
          (lm.bfsBound + 1) with
      | none => rfl
      | some n =>
        exfalso
        obtain ⟨hpn, -, hmin'⟩ := findLeast_some _ _ _ _ hf
        have hreachn : (tx, ty) ∈ lm.reachN n := by simpa using hpn
        have hminm : ∀ m, m < n → (tx, ty) ∉ lm.reachN m := by
          intro m hm hmm
          have hx := hmin' m (Nat.zero_le m) hm
          rw [decide_eq_true hmm] at hx
          exact absurd hx (by simp)
        obtain ⟨hokP, -, hheadP⟩ := pathBack_spec lm n (tx, ty) hreachn hminm
        exact hno _ hokP hheadP

/-- Witness for C3 on the concrete corridor level: searching the token's
own cell returns null, and searching the reachable cell (2,0) returns a
Move. -/
theorem pathfinder_search_correct_witness :
    PathFinder.search lmCorridor 0 0 = none ∧
    (PathFinder.search lmCorridor 2 0).isSome = true := by
  refine ⟨(pathfinder_search_correct lmCorridor 0 0).1 rfl, ?_⟩
  obtain ⟨m, hm, -⟩ := (pathfinder_search_correct lmCorridor 2 0).2.1
    [(2, 0), (1, 0), (0, 0)] (by decide) (by decide) (by decide)
  rw [hm]
  rfl

/-- C9: the claim fails on the code.  The call sites guarded by canMoveNow
(step, push, undo, redo) do enter startMoving with no active sequence, but
PlayField::mouseReleaseEvent commits the path-search Move without any
canMoveNow guard: a left release while a move sequence is still playing
(for example double-clicking the walk destination during the animation)
reaches startMoving with moveInProgress_ still true, and the assertion at
the head of startMoving fails (modelled as the transition returning none).
Concrete trace on the corridor level: press and release left on square
(2,0) - this commits and starts animating the two-step walk, leaving
moveInProgress true after the first tick - then release left on (2,0)
again. -/
theorem mouse_release_during_playback_asserts :
    ((pfCorridor.mousePressEvent (2, 0) MouseButton.left).mouseReleaseEvent
        (2, 0) MouseButton.left).map PlayField.moveInProgress = some true ∧
    ((pfCorridor.mousePressEvent (2, 0) MouseButton.left).mouseReleaseEvent
        (2, 0) MouseButton.left).bind
      (fun pf => (pf.mousePressEvent (2, 0)
        MouseButton.left).mouseReleaseEvent (2, 0) MouseButton.left) =
      none := by
  exact ⟨rfl, rfl⟩
